import Mathlib

/-!
Verification of the image↔tensor pipeline of the rmbg repository
(src/src-tauri/src/rmbg.rs).

Modelling conventions:
* Machine bytes (`u8`) are modelled as `ℕ`; every byte produced by the code
  is proved (or hypothesised) `≤ 255`.
* `f32` is modelled by `F32`: an exact rational for finite values plus
  explicit `pinf`, `ninf` and `nan` constructors.  Finite arithmetic is
  exact rational arithmetic (the spec's formulas are stated over reals);
  the special values follow IEEE-754 propagation, which is what the
  claims about NaN/degenerate normalization are about.
* Fallible Rust code is modelled by `RustOutcome`: `ok` for a normal
  return, `error` for a returned typed error (`anyhow::Error` /
  `ort::Error`), `panic` for a Rust panic (unwrap/index out of bounds).
  Error messages are not modelled.
* Pixel buffers are flat interleaved byte lists, exactly as the `Vec<u8>`
  buffers of the source.
-/

/-- Model of an `f32` value: exact rational for finite values, plus the
IEEE special values needed by the code (`x as u8` saturation and
`partial_cmp` totality are what the claims exercise). -/
inductive F32 where
  | fin (q : ℚ)
  | pinf
  | ninf
  | nan
deriving DecidableEq

/-- IEEE-style subtraction on the `F32` model. -/
def F32.sub : F32 → F32 → F32
  | .nan, _ => .nan
  | _, .nan => .nan
  | .fin a, .fin b => .fin (a - b)
  | .pinf, .pinf => .nan
  | .ninf, .ninf => .nan
  | .pinf, _ => .pinf
  | .ninf, _ => .ninf
  | .fin _, .pinf => .ninf
  | .fin _, .ninf => .pinf

/-- IEEE-style multiplication on the `F32` model. -/
def F32.mul : F32 → F32 → F32
  | .nan, _ => .nan
  | _, .nan => .nan
  | .fin a, .fin b => .fin (a * b)
  | .pinf, .pinf => .pinf
  | .pinf, .ninf => .ninf
  | .ninf, .pinf => .ninf
  | .ninf, .ninf => .pinf
  | .pinf, .fin b => if 0 < b then .pinf else if b < 0 then .ninf else .nan
  | .ninf, .fin b => if 0 < b then .ninf else if b < 0 then .pinf else .nan
  | .fin a, .pinf => if 0 < a then .pinf else if a < 0 then .ninf else .nan
  | .fin a, .ninf => if 0 < a then .ninf else if a < 0 then .pinf else .nan

/-- IEEE-style division on the `F32` model; in particular `0 / 0 = NaN`,
which is the degenerate-normalization case of `postprocess_image`. -/
def F32.div : F32 → F32 → F32
  | .nan, _ => .nan
  | _, .nan => .nan
  | .fin a, .fin b =>
      if b = 0 then (if a = 0 then .nan else if 0 < a then .pinf else .ninf)
      else .fin (a / b)
  | .pinf, .pinf => .nan
  | .pinf, .ninf => .nan
  | .ninf, .pinf => .nan
  | .ninf, .ninf => .nan
  | .pinf, .fin b => if b < 0 then .ninf else .pinf
  | .ninf, .fin b => if b < 0 then .pinf else .ninf
  | .fin _, .pinf => .fin 0
  | .fin _, .ninf => .fin 0

/-- Model of Rust `f32::partial_cmp`: `none` exactly when one operand is
NaN (the `unwrap` in the source panics on `none`). -/
def F32.pcmp : F32 → F32 → Option Ordering
  | .nan, _ => none
  | _, .nan => none
  | .fin a, .fin b => some (if a < b then .lt else if b < a then .gt else .eq)
  | .pinf, .pinf => some .eq
  | .ninf, .ninf => some .eq
  | .pinf, _ => some .gt
  | _, .pinf => some .lt
  | .ninf, _ => some .lt
  | _, .ninf => some .gt

/-- Model of Rust's saturating cast `x as u8`: truncation toward zero,
clamped to `[0, 255]`, with `NaN ↦ 0`. -/
def F32.toU8 : F32 → ℕ
  | .fin q => if q < 0 then 0 else min 255 (Rat.floor q).toNat
  | .pinf => 255
  | .ninf => 0
  | .nan => 0

/-- Outcome of a fallible Rust computation: a value, a returned typed
error, or a panic. -/
inductive RustOutcome (α : Type) where
  | ok (a : α)
  | error
  | panic
deriving DecidableEq

/-- A decoded raster image: width, height and a flat interleaved byte
buffer (RGBA for 4-channel images, RGB for the mask produced by
`postprocess_image`). -/
structure Image where
  width : ℕ
  height : ℕ
  data : List ℕ
deriving DecidableEq

/-- Constant `ML_MODEL_IMAGE_WIDTH` of the source. -/
def ML_MODEL_IMAGE_WIDTH : ℕ := 1024

/-- Constant `ML_MODEL_IMAGE_HEIGHT` of the source. -/
def ML_MODEL_IMAGE_HEIGHT : ℕ := 1024

/-- Modelled from the spec: premultiplication of one colour byte by the
alpha byte, `round(v * a / 255)`, stored back into a `u8`.  The source
delegates this to `fast_image_resize::MulDiv::multiply_alpha_inplace_typed`
on a `U8x4` (byte) buffer; the byte quantisation is forced by the in-place
`U8x4` pixel type chosen in `resize_rgba`. -/
def mulDiv255 (v a : ℕ) : ℕ := (2 * v * a + 255) / 510

/-- Modelled from the spec: un-premultiplication of one colour byte,
`round(v * 255 / a)` clamped to 255, with `a = 0` mapped to 0 (the spec's
"treat alpha == 0 as a special case").  The source delegates this to
`fast_image_resize::MulDiv::divide_alpha_inplace_typed`. -/
def divAlpha (v a : ℕ) : ℕ := if a = 0 then 0 else min 255 ((2 * v * 255 + a) / (2 * a))

/-- Premultiply every RGBA pixel of a flat buffer (alpha byte kept). -/
def multiplyAlphaL : List ℕ → List ℕ
  | r :: g :: b :: a :: rest =>
      mulDiv255 r a :: mulDiv255 g a :: mulDiv255 b a :: a :: multiplyAlphaL rest
  | other => other

/-- Un-premultiply every RGBA pixel of a flat buffer (alpha byte kept). -/
def divideAlphaL : List ℕ → List ℕ
  | r :: g :: b :: a :: rest =>
      divAlpha r a :: divAlpha g a :: divAlpha b a :: a :: divideAlphaL rest
  | other => other

/-- Concatenation of the blocks `f 0, f 1, …, f (n-1)`; models a Rust
loop that pushes one block of bytes per pixel index. -/
def repPix (f : ℕ → List ℕ) : ℕ → List ℕ
  | 0 => []
  | n + 1 => repPix f n ++ f n

/-- A resampling kernel: given the premultiplied source buffer, source
dimensions, target dimensions and a byte index of the target buffer, it
yields that byte of the resampled image.  Modelled from the spec: the
convolution filter of the external resizer is opaque; the only structural
facts used are that the destination buffer has exactly
`target_w * target_h * 4` bytes (it is preallocated at that size in the
source) and that resizing to the source's own size copies the buffer. -/
def Resample : Type := List ℕ → ℕ → ℕ → ℕ → ℕ → ℕ → ℕ

/-- Model of `resize_rgba`: check the source buffer length (the
`Image::from_vec_u8` constructor errors on a mismatch), premultiply RGB by
alpha in place, resample (a copy when the dimensions are unchanged), then
un-premultiply.  Returns the flat RGBA byte buffer of the target size. -/
def resize_rgba (resample : Resample) (img : Image) (tw th : ℕ) :
    RustOutcome (List ℕ) :=
  if img.data.length = img.width * img.height * 4 then
    .ok (divideAlphaL
      (if img.width = tw ∧ img.height = th then multiplyAlphaL img.data
       else (List.range (tw * th * 4)).map
         (resample (multiplyAlphaL img.data) img.width img.height tw th)))
  else .error

/-- Model of the `chunks(4)` loop of `preprocess_image`: split a flat RGBA
buffer into the three colour planes, dropping alpha.  A trailing chunk of
one or two bytes makes `chunk[1]` / `chunk[2]` panic in the source; a
trailing chunk of three bytes is consumed without panic. -/
def planarize : List ℕ → RustOutcome (List ℕ × List ℕ × List ℕ)
  | [] => .ok ([], [], [])
  | r :: g :: b :: _a :: rest =>
      match planarize rest with
      | .ok (rs, gs, bs) => .ok (r :: rs, g :: gs, b :: bs)
      | .error => .error
      | .panic => .panic
  | [r, g, b] => .ok ([r], [g], [b])
  | _ => .panic

/-- Model of `preprocess_image`: resize to the model resolution, split the
RGBA buffer into planar R, G, B vectors (alpha discarded), concatenate
them channel-major, check the `Array3::from_shape_vec` element count, then
apply `x as f32 / 255.0` followed by `normalize_image`'s
`(x - 0.5) / 1.0`. -/
def preprocess_image (resample : Resample) (img : Image) :
    RustOutcome (List F32) :=
  match resize_rgba resample img ML_MODEL_IMAGE_WIDTH ML_MODEL_IMAGE_HEIGHT with
  | .error => .error
  | .panic => .panic
  | .ok buf =>
    match planarize buf with
    | .error => .error
    | .panic => .panic
    | .ok (rs, gs, bs) =>
      let reordered := rs ++ gs ++ bs
      if reordered.length = 3 * ML_MODEL_IMAGE_WIDTH * ML_MODEL_IMAGE_HEIGHT then
        .ok (((reordered.map (fun (b : ℕ) => F32.fin ((b : ℚ) / 255))).map
          (fun x => F32.div (F32.sub x (F32.fin (1 / 2))) (F32.fin 1))))
      else .error

/-- Model of Rust `Iterator::max_by` with the source's
`|a, b| a.partial_cmp(b).unwrap()` comparator: fold keeping the current
maximum (ties keep the later element), panicking when a comparison
involves NaN. -/
def maxByFold : Option F32 → List F32 → RustOutcome (Option F32)
  | acc, [] => .ok acc
  | none, x :: rest => maxByFold (some x) rest
  | some m, x :: rest =>
      match F32.pcmp m x with
      | none => .panic
      | some o => maxByFold (some (if o = .gt then m else x)) rest

/-- Model of Rust `Iterator::min_by` with the unwrapping comparator:
fold keeping the current minimum (ties keep the earlier element),
panicking when a comparison involves NaN. -/
def minByFold : Option F32 → List F32 → RustOutcome (Option F32)
  | acc, [] => .ok acc
  | none, x :: rest => minByFold (some x) rest
  | some m, x :: rest =>
      match F32.pcmp m x with
      | none => .panic
      | some o => minByFold (some (if o = .gt then x else m)) rest

/-- The `max_by` call of `postprocess_image`. -/
def max_by (l : List F32) : RustOutcome (Option F32) := maxByFold none l

/-- The `min_by` call of `postprocess_image`. -/
def min_by (l : List F32) : RustOutcome (Option F32) := minByFold none l

/-- Model of the pixel-filling loop of `postprocess_image`: an RGB image
of the model resolution whose pixel `(x, y)` replicates byte
`bytes[y * W + x]` into R, G and B.  Indexing past the end of `bytes`
(a tensor with fewer than `W * H` scores) panics. -/
def buildMask (W H : ℕ) (bytes : List ℕ) : RustOutcome Image :=
  if H * W = 0 ∨ H * W ≤ bytes.length then
    .ok ⟨W, H, repPix (fun i => [bytes.getD i 0, bytes.getD i 0, bytes.getD i 0]) (H * W)⟩
  else .panic

/-- Model of `postprocess_image`: take max and min of the scores with the
unwrapping comparator (empty tensor gives the `ok_or` typed error), map
every score through `((x - min) / (max - min)) * 255.0` and `as u8`, then
fill the fixed-size RGB mask image. -/
def postprocess_image (scores : List F32) : RustOutcome Image :=
  match max_by scores with
  | .error => .error
  | .panic => .panic
  | .ok none => .error
  | .ok (some ma) =>
    match min_by scores with
    | .error => .error
    | .panic => .panic
    | .ok none => .error
    | .ok (some mi) =>
      let bytes := scores.map
        (fun x => F32.toU8 (F32.mul (F32.div (F32.sub x mi) (F32.sub ma mi)) (F32.fin 255)))
      buildMask ML_MODEL_IMAGE_WIDTH ML_MODEL_IMAGE_HEIGHT bytes

/-- Model of `DynamicImage::to_rgba8` on the RGB mask image: every RGB
triple gains an opaque alpha byte. -/
def rgbaOfRgb : List ℕ → List ℕ
  | r :: g :: b :: rest => r :: g :: b :: 255 :: rgbaOfRgb rest
  | other => other

/-- Byte `c` (0 = R, 1 = G, 2 = B, 3 = A) of pixel `(x, y)` of a flat RGBA
image, as read by `GenericImageView::get_pixel`. -/
def pixByte (img : Image) (x y c : ℕ) : ℕ :=
  img.data.getD (4 * (y * img.width + x) + c) 0

/-- Model of `apply_mask`: allocate an output of the mask's dimensions and
fill pixel `(x, y)` with the original's RGB and the mask's first channel
as alpha.  `original_image.get_pixel(x, y)` panics when the mask extends
past the original in either direction; there is no dimension check and no
error return. -/
def apply_mask (orig mask : Image) : RustOutcome Image :=
  if 0 < mask.width ∧ 0 < mask.height ∧
      (orig.width < mask.width ∨ orig.height < mask.height) then
    .panic
  else
    .ok ⟨mask.width, mask.height,
      repPix (fun i =>
        [pixByte orig (i % mask.width) (i / mask.width) 0,
         pixByte orig (i % mask.width) (i / mask.width) 1,
         pixByte orig (i % mask.width) (i / mask.width) 2,
         pixByte mask (i % mask.width) (i / mask.width) 0])
        (mask.height * mask.width)⟩

/-- A well-formed RGBA buffer all of whose pixels are fully opaque
(alpha byte 255) with colour bytes in range; used to state the amended
identity-resize property. -/
inductive OpaqueData : List ℕ → Prop where
  | nil : OpaqueData []
  | cons (r g b : ℕ) {rest : List ℕ} (hr : r ≤ 255) (hg : g ≤ 255) (hb : b ≤ 255)
      (h : OpaqueData rest) : OpaqueData (r :: g :: b :: 255 :: rest)

/-- Model of `Rmbg::remove_background`.  The ONNX session is the opaque
`inference` function from the flat input tensor to the flat
`(H_model, W_model)` output scores (the batch axis insertion, the named
input/output lookup and the `s![0, 0, .., ..]` slice of the external
engine are identities on the flat data).  After decoding, the mask is
converted to RGBA, resized to the original's dimensions, rebuilt via
`ImageBuffer::from_raw` (which errors when the buffer is too small), and
composited onto the original. -/
def remove_background (resample : Resample) (inference : List F32 → List F32)
    (orig : Image) : RustOutcome Image :=
  match preprocess_image resample orig with
  | .error => .error
  | .panic => .panic
  | .ok t =>
    match postprocess_image (inference t) with
    | .error => .error
    | .panic => .panic
    | .ok maskRgb =>
      match resize_rgba resample
          ⟨maskRgb.width, maskRgb.height, rgbaOfRgb maskRgb.data⟩
          orig.width orig.height with
      | .error => .error
      | .panic => .panic
      | .ok resized =>
        if orig.width * orig.height * 4 ≤ resized.length then
          apply_mask orig ⟨orig.width, orig.height, resized⟩
        else .error

/-! ## Generic lemmas about the block-building loop `repPix` -/

theorem repPix_length (f : ℕ → List ℕ) (k : ℕ) (hf : ∀ i, (f i).length = k) :
    ∀ n, (repPix f n).length = k * n := by
  intro n
  induction n with
  | zero => simp [repPix]
  | succ n ih => simp [repPix, ih, hf, Nat.mul_succ]

theorem repPix_getD (f : ℕ → List ℕ) (k : ℕ) (hf : ∀ i, (f i).length = k) :
    ∀ n i c, i < n → c < k → (repPix f n).getD (k * i + c) 0 = (f i).getD c 0 := by
  intro n
  induction n with
  | zero => intro i c hi; omega
  | succ n ih =>
    intro i c hi hc
    rcases Nat.lt_succ_iff_lt_or_eq.mp hi with h | h
    · have hlt : k * i + c < (repPix f n).length := by
        rw [repPix_length f k hf n]
        calc k * i + c < k * i + k := by omega
        _ = k * (i + 1) := by ring
        _ ≤ k * n := Nat.mul_le_mul_left k h
      rw [repPix, List.getD_append _ _ _ _ hlt]
      exact ih i c h hc
    · subst h
      have hlen : (repPix f i).length = k * i := repPix_length f k hf i
      rw [repPix, List.getD_append_right _ _ _ _ (by omega)]
      congr 1
      omega

theorem repPix_congr (f g : ℕ → List ℕ) :
    ∀ n, (∀ i, i < n → f i = g i) → repPix f n = repPix g n := by
  intro n
  induction n with
  | zero => intro _; rfl
  | succ n ih =>
    intro h
    rw [repPix, repPix, ih (fun i hi => h i (by omega)), h n (by omega)]

theorem repPix_three_const (v : ℕ) :
    ∀ n, repPix (fun _ => [v, v, v]) n = List.replicate (3 * n) v := by
  intro n
  induction n with
  | zero => rfl
  | succ n ih =>
    rw [repPix, ih, Nat.mul_succ, List.replicate_add]
    rfl

/-! ## Lemmas about the alpha premultiply/unpremultiply passes -/

theorem multiplyAlphaL_length (l : List ℕ) : (multiplyAlphaL l).length = l.length := by
  match l with
  | r :: g :: b :: a :: rest =>
    rw [multiplyAlphaL]
    simp [multiplyAlphaL_length rest]
  | [] => rfl
  | [_] => rfl
  | [_, _] => rfl
  | [_, _, _] => rfl

theorem divideAlphaL_length (l : List ℕ) : (divideAlphaL l).length = l.length := by
  match l with
  | r :: g :: b :: a :: rest =>
    rw [divideAlphaL]
    simp [divideAlphaL_length rest]
  | [] => rfl
  | [_] => rfl
  | [_, _] => rfl
  | [_, _, _] => rfl

theorem divAlpha_le_255 (v a : ℕ) : divAlpha v a ≤ 255 := by
  unfold divAlpha
  split
  · omega
  · exact Nat.min_le_left _ _

theorem mulDiv255_full_alpha (r : ℕ) : mulDiv255 r 255 = r := by
  unfold mulDiv255
  omega

theorem divAlpha_full_alpha (v : ℕ) (hv : v ≤ 255) : divAlpha v 255 = v := by
  unfold divAlpha
  have h1 : (2 * v * 255 + 255) / (2 * 255) = v := by omega
  simp [h1, hv]

theorem alpha_roundtrip_full_alpha (l : List ℕ) (h : OpaqueData l) :
    divideAlphaL (multiplyAlphaL l) = l := by
  induction h with
  | nil => rfl
  | cons r g b hr hg hb h ih =>
    rw [multiplyAlphaL, divideAlphaL, mulDiv255_full_alpha, mulDiv255_full_alpha,
      mulDiv255_full_alpha, divAlpha_full_alpha r hr, divAlpha_full_alpha g hg,
      divAlpha_full_alpha b hb, ih]

/-! ## C2: the claimed `DimensionMismatch` check does not exist -/

/-- C2 counterexample: the original is 2×2 and the mask 1×1, so the
dimensions differ, yet `apply_mask` produces an output image (the mask's
size, sampling the original) instead of failing with a typed
`DimensionMismatch` error. -/
theorem c2_counterexample :
    apply_mask ⟨2, 2, [1, 2, 3, 4, 5, 6, 7, 8, 9, 10, 11, 12, 13, 14, 15, 16]⟩
        ⟨1, 1, [200, 200, 200, 255]⟩ =
      .ok ⟨1, 1, [1, 2, 3, 200]⟩ := by decide

/-- C2 (amended): `apply_mask` performs no dimension check and has no
error return.  When the mask is no larger than the original in both
dimensions it produces an output image of the mask's dimensions; when the
mask is strictly wider or taller than the original (and has at least one
pixel) the out-of-bounds `get_pixel` panics instead of returning a typed
error. -/
theorem c2_no_dimension_check (orig mask : Image) :
    (mask.width ≤ orig.width → mask.height ≤ orig.height →
      ∃ out, apply_mask orig mask = .ok out ∧
        out.width = mask.width ∧ out.height = mask.height) ∧
    (0 < mask.width → 0 < mask.height →
      (orig.width < mask.width ∨ orig.height < mask.height) →
      apply_mask orig mask = .panic) := by
  constructor
  · intro h1 h2
    unfold apply_mask
    rw [if_neg (by omega)]
    exact ⟨_, rfl, rfl, rfl⟩
  · intro h1 h2 h3
    unfold apply_mask
    rw [if_pos ⟨h1, h2, h3⟩]

/-- Witness for C2 (amended), at a 2×2 original with a 1×1 mask and at a
1×1 original with a 2×1 mask. -/
theorem c2_witness :
    (∃ out,
      apply_mask ⟨2, 2, [1, 2, 3, 4, 5, 6, 7, 8, 9, 10, 11, 12, 13, 14, 15, 16]⟩
          ⟨1, 1, [9, 9, 9, 255]⟩ = .ok out ∧
        out.width = 1 ∧ out.height = 1) ∧
    apply_mask ⟨1, 1, [1, 2, 3, 4]⟩ ⟨2, 1, [1, 2, 3, 4, 5, 6, 7, 8]⟩ = .panic :=
  ⟨(c2_no_dimension_check _ _).1 (by decide) (by decide),
   (c2_no_dimension_check _ _).2 (by decide) (by decide) (Or.inl (by decide))⟩

/-! ## C3: identity resize is not pixel-identical under partial alpha -/

/-- C3 counterexample: the 1×1 image with bytes (1, 0, 0, 100) — alpha
strictly between 0 and 255 — resized to its own 1×1 size comes back as
(0, 0, 0, 100): the red byte is destroyed by the byte-quantised alpha
premultiplication, so the buffer is not pixel-identical. -/
theorem c3_counterexample :
    resize_rgba (fun _ _ _ _ _ _ => 0) ⟨1, 1, [1, 0, 0, 100]⟩ 1 1 =
        .ok [0, 0, 0, 100] ∧
      ([0, 0, 0, 100] : List ℕ) ≠ [1, 0, 0, 100] := by decide

/-- C3 (amended): resizing an image to its own current dimensions returns
a buffer pixel-identical to the input RGBA bytes when every pixel is fully
opaque (alpha = 255); with alpha strictly between 0 and 255 the
premultiply/unpremultiply byte quantisation can change colour bytes. -/
theorem c3_resize_identity_full_alpha (resample : Resample) (img : Image)
    (hwf : img.data.length = img.width * img.height * 4)
    (hop : OpaqueData img.data) :
    resize_rgba resample img img.width img.height = .ok img.data := by
  unfold resize_rgba
  rw [if_pos hwf]
  simp only [and_self, if_true]
  rw [alpha_roundtrip_full_alpha _ hop]

/-- Witness for C3 (amended): a fully opaque 1×1 image round-trips
unchanged. -/
theorem c3_witness :
    resize_rgba (fun _ _ _ _ _ _ => 0) ⟨1, 1, [10, 20, 30, 255]⟩ 1 1 =
      .ok [10, 20, 30, 255] :=
  c3_resize_identity_full_alpha _ _ (by decide)
    (OpaqueData.cons 10 20 30 (by omega) (by omega) (by omega) OpaqueData.nil)

/-! ## C8: compositing with equal dimensions -/

/-- C8: when the mask and original have equal dimensions, `apply_mask`
succeeds and every output pixel carries the original's RGB bytes and the
mask's first channel as its alpha byte. -/
theorem c8_apply_mask_composites (orig mask : Image)
    (hw : orig.width = mask.width) (hh : orig.height = mask.height) :
    ∃ out, apply_mask orig mask = .ok out ∧
      out.width = mask.width ∧ out.height = mask.height ∧
      (∀ x y c, x < mask.width → y < mask.height → c < 3 →
        out.data.getD (4 * (y * mask.width + x) + c) 0 =
          orig.data.getD (4 * (y * orig.width + x) + c) 0) ∧
      (∀ x y, x < mask.width → y < mask.height →
        out.data.getD (4 * (y * mask.width + x) + 3) 0 =
          mask.data.getD (4 * (y * mask.width + x)) 0) := by
  unfold apply_mask
  rw [if_neg (by omega)]
  refine ⟨_, rfl, rfl, rfl, ?_, ?_⟩
  · intro x y c hx hy hc
    have hi : y * mask.width + x < mask.height * mask.width := by
      calc y * mask.width + x < (y + 1) * mask.width := by
            rw [Nat.succ_mul]; omega
      _ ≤ mask.height * mask.width := Nat.mul_le_mul_right _ (by omega)
    have key := repPix_getD
      (fun i => [pixByte orig (i % mask.width) (i / mask.width) 0,
        pixByte orig (i % mask.width) (i / mask.width) 1,
        pixByte orig (i % mask.width) (i / mask.width) 2,
        pixByte mask (i % mask.width) (i / mask.width) 0]) 4
      (fun _ => rfl) (mask.height * mask.width) (y * mask.width + x) c hi (by omega)
    have hmod : (y * mask.width + x) % mask.width = x := by
      rw [Nat.mul_comm, Nat.mul_add_mod, Nat.mod_eq_of_lt hx]
    have hdiv : (y * mask.width + x) / mask.width = y := by
      rw [Nat.mul_comm, Nat.mul_add_div (by omega : 0 < mask.width), Nat.div_eq_of_lt hx]
      omega
    rw [show (⟨mask.width, mask.height, repPix
      (fun i => [pixByte orig (i % mask.width) (i / mask.width) 0,
        pixByte orig (i % mask.width) (i / mask.width) 1,
        pixByte orig (i % mask.width) (i / mask.width) 2,
        pixByte mask (i % mask.width) (i / mask.width) 0])
      (mask.height * mask.width)⟩ : Image).data = repPix
      (fun i => [pixByte orig (i % mask.width) (i / mask.width) 0,
        pixByte orig (i % mask.width) (i / mask.width) 1,
        pixByte orig (i % mask.width) (i / mask.width) 2,
        pixByte mask (i % mask.width) (i / mask.width) 0])
      (mask.height * mask.width) from rfl, key]
    interval_cases c <;>
      simp [List.getD, pixByte, hmod, hdiv, hw]
  · intro x y hx hy
    have hi : y * mask.width + x < mask.height * mask.width := by
      calc y * mask.width + x < (y + 1) * mask.width := by
            rw [Nat.succ_mul]; omega
      _ ≤ mask.height * mask.width := Nat.mul_le_mul_right _ (by omega)
    have key := repPix_getD
      (fun i => [pixByte orig (i % mask.width) (i / mask.width) 0,
        pixByte orig (i % mask.width) (i / mask.width) 1,
        pixByte orig (i % mask.width) (i / mask.width) 2,
        pixByte mask (i % mask.width) (i / mask.width) 0]) 4
      (fun _ => rfl) (mask.height * mask.width) (y * mask.width + x) 3 hi (by omega)
    have hmod : (y * mask.width + x) % mask.width = x := by
      rw [Nat.mul_comm, Nat.mul_add_mod, Nat.mod_eq_of_lt hx]
    have hdiv : (y * mask.width + x) / mask.width = y := by
      rw [Nat.mul_comm, Nat.mul_add_div (by omega : 0 < mask.width), Nat.div_eq_of_lt hx]
      omega
    rw [show (⟨mask.width, mask.height, repPix
      (fun i => [pixByte orig (i % mask.width) (i / mask.width) 0,
        pixByte orig (i % mask.width) (i / mask.width) 1,
        pixByte orig (i % mask.width) (i / mask.width) 2,
        pixByte mask (i % mask.width) (i / mask.width) 0])
      (mask.height * mask.width)⟩ : Image).data = repPix
      (fun i => [pixByte orig (i % mask.width) (i / mask.width) 0,
        pixByte orig (i % mask.width) (i / mask.width) 1,
        pixByte orig (i % mask.width) (i / mask.width) 2,
        pixByte mask (i % mask.width) (i / mask.width) 0])
      (mask.height * mask.width) from rfl, key]
    simp [List.getD, pixByte, hmod, hdiv]

/-- Witness for C8: original pixel (10, 20, 30) with mask value 200 gives
output pixel (10, 20, 30, 200). -/
theorem c8_witness :
    ∃ out, apply_mask ⟨1, 1, [10, 20, 30, 255]⟩ ⟨1, 1, [200, 0, 0, 255]⟩ = .ok out ∧
      out.width = 1 ∧ out.height = 1 ∧
      (∀ x y c, x < 1 → y < 1 → c < 3 →
        out.data.getD (4 * (y * 1 + x) + c) 0 =
          (⟨1, 1, [10, 20, 30, 255]⟩ : Image).data.getD (4 * (y * 1 + x) + c) 0) ∧
      (∀ x y, x < 1 → y < 1 →
        out.data.getD (4 * (y * 1 + x) + 3) 0 =
          (⟨1, 1, [200, 0, 0, 255]⟩ : Image).data.getD (4 * (y * 1 + x)) 0) :=
  c8_apply_mask_composites ⟨1, 1, [10, 20, 30, 255]⟩ ⟨1, 1, [200, 0, 0, 255]⟩ rfl rfl

/-! ## Lemmas about the min/max folds of `postprocess_image` -/

theorem pcmp_nan_right (a : F32) : F32.pcmp a .nan = none := by
  cases a <;> rfl

theorem pcmp_nan_left (b : F32) : F32.pcmp .nan b = none := by
  cases b <;> rfl

theorem pcmp_some_of_ne_nan (a b : F32) (ha : a ≠ .nan) (hb : b ≠ .nan) :
    ∃ o, F32.pcmp a b = some o := by
  cases a <;> cases b <;> simp_all [F32.pcmp]

theorem maxByFold_panic_of_nan :
    ∀ (xs : List F32) (m : F32), (m = .nan ∧ xs ≠ []) ∨ F32.nan ∈ xs →
      maxByFold (some m) xs = .panic := by
  intro xs
  induction xs with
  | nil =>
    intro m h
    rcases h with ⟨_, h⟩ | h
    · exact absurd rfl h
    · simp at h
  | cons x rest ih =>
    intro m h
    by_cases hm : m = .nan
    · subst hm
      rw [maxByFold, pcmp_nan_left]
    · by_cases hxn : x = .nan
      · subst hxn
        rw [maxByFold, pcmp_nan_right]
      · have hrest : F32.nan ∈ rest := by
          rcases h with ⟨hm', _⟩ | hmem
          · exact absurd hm' hm
          · rcases List.mem_cons.mp hmem with h' | h'
            · exact absurd h'.symm hxn
            · exact h'
        obtain ⟨o, ho⟩ := pcmp_some_of_ne_nan m x hm hxn
        rw [maxByFold, ho]
        exact ih _ (Or.inr hrest)

theorem minByFold_panic_of_nan :
    ∀ (xs : List F32) (m : F32), (m = .nan ∧ xs ≠ []) ∨ F32.nan ∈ xs →
      minByFold (some m) xs = .panic := by
  intro xs
  induction xs with
  | nil =>
    intro m h
    rcases h with ⟨_, h⟩ | h
    · exact absurd rfl h
    · simp at h
  | cons x rest ih =>
    intro m h
    by_cases hm : m = .nan
    · subst hm
      rw [minByFold, pcmp_nan_left]
    · by_cases hxn : x = .nan
      · subst hxn
        rw [minByFold, pcmp_nan_right]
      · have hrest : F32.nan ∈ rest := by
          rcases h with ⟨hm', _⟩ | hmem
          · exact absurd hm' hm
          · rcases List.mem_cons.mp hmem with h' | h'
            · exact absurd h'.symm hxn
            · exact h'
        obtain ⟨o, ho⟩ := pcmp_some_of_ne_nan m x hm hxn
        rw [minByFold, ho]
        exact ih _ (Or.inr hrest)

theorem maxByFold_ok_of_no_nan :
    ∀ (xs : List F32) (m : F32), m ≠ .nan → (∀ x ∈ xs, x ≠ .nan) →
      ∃ r, maxByFold (some m) xs = .ok (some r) ∧ r ≠ .nan := by
  intro xs
  induction xs with
  | nil => exact fun m hm _ => ⟨m, rfl, hm⟩
  | cons x rest ih =>
    intro m hm hall
    obtain ⟨o, ho⟩ := pcmp_some_of_ne_nan m x hm (hall x (by simp))
    rw [maxByFold, ho]
    apply ih
    · by_cases h : o = Ordering.gt <;> simp [h, hm, hall x (by simp)]
    · exact fun z hz => hall z (by simp [hz])

theorem minByFold_ok_of_no_nan :
    ∀ (xs : List F32) (m : F32), m ≠ .nan → (∀ x ∈ xs, x ≠ .nan) →
      ∃ r, minByFold (some m) xs = .ok (some r) ∧ r ≠ .nan := by
  intro xs
  induction xs with
  | nil => exact fun m hm _ => ⟨m, rfl, hm⟩
  | cons x rest ih =>
    intro m hm hall
    obtain ⟨o, ho⟩ := pcmp_some_of_ne_nan m x hm (hall x (by simp))
    rw [minByFold, ho]
    apply ih
    · by_cases h : o = Ordering.gt <;> simp [h, hm, hall x (by simp)]
    · exact fun z hz => hall z (by simp [hz])

theorem maxByFold_fin (qs : List ℚ) :
    ∀ m : ℚ, maxByFold (some (.fin m)) (qs.map F32.fin) =
      .ok (some (.fin (qs.foldl max m))) := by
  induction qs with
  | nil => intro m; rfl
  | cons q rest ih =>
    intro m
    simp only [List.map_cons, List.foldl_cons, maxByFold, F32.pcmp]
    rcases lt_trichotomy m q with h | h | h
    · rw [if_pos h]
      simp only [reduceCtorEq, if_false]
      rw [ih q, max_eq_right h.le]
    · subst h
      rw [if_neg (lt_irrefl m), if_neg (lt_irrefl m)]
      simp only [reduceCtorEq, if_false]
      rw [ih m, max_self]
    · rw [if_neg (show ¬ m < q from not_lt.2 h.le), if_pos h,
        if_pos (rfl : Ordering.gt = Ordering.gt)]
      rw [ih m, max_eq_left h.le]

theorem minByFold_fin (qs : List ℚ) :
    ∀ m : ℚ, minByFold (some (.fin m)) (qs.map F32.fin) =
      .ok (some (.fin (qs.foldl min m))) := by
  induction qs with
  | nil => intro m; rfl
  | cons q rest ih =>
    intro m
    simp only [List.map_cons, List.foldl_cons, minByFold, F32.pcmp]
    rcases lt_trichotomy m q with h | h | h
    · rw [if_pos h]
      simp only [reduceCtorEq, if_false]
      rw [ih m, min_eq_left h.le]
    · subst h
      rw [if_neg (lt_irrefl m), if_neg (lt_irrefl m)]
      simp only [reduceCtorEq, if_false]
      rw [ih m, min_self]
    · rw [if_neg (show ¬ m < q from not_lt.2 h.le), if_pos h,
        if_pos (rfl : Ordering.gt = Ordering.gt)]
      rw [ih q, min_eq_right h.le]

theorem max_by_fin (q : ℚ) (qs : List ℚ) :
    max_by ((q :: qs).map F32.fin) = .ok (some (.fin (qs.foldl max q))) := by
  simp only [List.map_cons, max_by, maxByFold]
  exact maxByFold_fin qs q

theorem min_by_fin (q : ℚ) (qs : List ℚ) :
    min_by ((q :: qs).map F32.fin) = .ok (some (.fin (qs.foldl min q))) := by
  simp only [List.map_cons, min_by, minByFold]
  exact minByFold_fin qs q

theorem foldl_max_spec (qs : List ℚ) :
    ∀ m : ℚ, (qs.foldl max m = m ∨ qs.foldl max m ∈ qs) ∧
      m ≤ qs.foldl max m ∧ ∀ x ∈ qs, x ≤ qs.foldl max m := by
  induction qs with
  | nil => simp
  | cons q rest ih =>
    intro m
    obtain ⟨hmem, hle, hall⟩ := ih (max m q)
    simp only [List.foldl_cons]
    refine ⟨?_, le_trans (le_max_left _ _) hle, ?_⟩
    · rcases hmem with h | h
      · rcases le_total q m with hq | hq
        · left
          rw [h, max_eq_left hq]
        · right
          rw [h, max_eq_right hq]
          exact List.mem_cons_self _ _
      · right
        exact List.mem_cons_of_mem _ h
    · intro x hx
      rcases List.mem_cons.mp hx with rfl | hx
      · exact le_trans (le_max_right m x) hle
      · exact hall x hx

theorem foldl_min_spec (qs : List ℚ) :
    ∀ m : ℚ, (qs.foldl min m = m ∨ qs.foldl min m ∈ qs) ∧
      qs.foldl min m ≤ m ∧ ∀ x ∈ qs, qs.foldl min m ≤ x := by
  induction qs with
  | nil => simp
  | cons q rest ih =>
    intro m
    obtain ⟨hmem, hle, hall⟩ := ih (min m q)
    simp only [List.foldl_cons]
    refine ⟨?_, le_trans hle (min_le_left _ _), ?_⟩
    · rcases hmem with h | h
      · rcases le_total m q with hq | hq
        · left
          rw [h, min_eq_left hq]
        · right
          rw [h, min_eq_right hq]
          exact List.mem_cons_self _ _
      · right
        exact List.mem_cons_of_mem _ h
    · intro x hx
      rcases List.mem_cons.mp hx with rfl | hx
      · exact le_trans hle (min_le_right m x)
      · exact hall x hx

theorem max_by_eq_max (q : ℚ) (qs : List ℚ) (ma : ℚ)
    (hmem : ma ∈ q :: qs) (hub : ∀ x ∈ q :: qs, x ≤ ma) :
    max_by ((q :: qs).map F32.fin) = .ok (some (.fin ma)) := by
  rw [max_by_fin]
  obtain ⟨hm, hle, hall⟩ := foldl_max_spec qs q
  have heq : qs.foldl max q = ma := by
    apply le_antisymm
    · rcases hm with h | h
      · rw [h]
        exact hub q (List.mem_cons_self _ _)
      · exact hub _ (List.mem_cons_of_mem _ h)
    · rcases List.mem_cons.mp hmem with rfl | h
      · exact hle
      · exact hall _ h
  rw [heq]

theorem min_by_eq_min (q : ℚ) (qs : List ℚ) (mi : ℚ)
    (hmem : mi ∈ q :: qs) (hlb : ∀ x ∈ q :: qs, mi ≤ x) :
    min_by ((q :: qs).map F32.fin) = .ok (some (.fin mi)) := by
  rw [min_by_fin]
  obtain ⟨hm, hle, hall⟩ := foldl_min_spec qs q
  have heq : qs.foldl min q = mi := by
    apply le_antisymm
    · rcases List.mem_cons.mp hmem with rfl | h
      · exact hle
      · exact hall _ h
    · rcases hm with h | h
      · rw [h]
        exact hlb q (List.mem_cons_self _ _)
      · exact hlb _ (List.mem_cons_of_mem _ h)
  rw [heq]

/-! ## Evaluation helpers: replicate buffers and mask building -/

theorem getD_replicate (n i v : ℕ) (h : i < n) :
    (List.replicate n v).getD i 0 = v := by
  rw [List.getD, List.get?_eq_getElem?, List.getElem?_replicate, if_pos h]
  rfl

theorem foldl_max_replicate (m : ℕ) (c : ℚ) :
    (List.replicate m c).foldl max c = c := by
  induction m with
  | zero => rfl
  | succ m ih => simp [List.replicate_succ, List.foldl_cons, max_self, ih]

theorem foldl_min_replicate (m : ℕ) (c : ℚ) :
    (List.replicate m c).foldl min c = c := by
  induction m with
  | zero => rfl
  | succ m ih => simp [List.replicate_succ, List.foldl_cons, min_self, ih]

theorem buildMask_replicate (W H n v : ℕ) (h : H * W ≤ n) :
    buildMask W H (List.replicate n v) =
      .ok ⟨W, H, List.replicate (3 * (H * W)) v⟩ := by
  unfold buildMask
  rw [if_pos (Or.inr (by simp [h]))]
  have h1 : repPix (fun i => [(List.replicate n v).getD i 0,
      (List.replicate n v).getD i 0, (List.replicate n v).getD i 0]) (H * W) =
      repPix (fun _ => [v, v, v]) (H * W) := by
    apply repPix_congr
    intro i hi
    rw [getD_replicate n i v (by omega)]
  rw [h1, repPix_three_const]

theorem buildMask_spec (W H : ℕ) (bytes : List ℕ) (h : H * W ≤ bytes.length) :
    ∃ img, buildMask W H bytes = .ok img ∧ img.width = W ∧ img.height = H ∧
      ∀ i ch, i < H * W → ch < 3 →
        img.data.getD (3 * i + ch) 0 = bytes.getD i 0 := by
  unfold buildMask
  rw [if_pos (Or.inr h)]
  refine ⟨_, rfl, rfl, rfl, ?_⟩
  intro i ch hi hc
  have key := repPix_getD
    (fun i => [bytes.getD i 0, bytes.getD i 0, bytes.getD i 0]) 3
    (fun _ => rfl) (H * W) i ch hi hc
  rw [show (⟨W, H, repPix (fun i => [bytes.getD i 0, bytes.getD i 0,
      bytes.getD i 0]) (H * W)⟩ : Image).data = repPix
      (fun i => [bytes.getD i 0, bytes.getD i 0, bytes.getD i 0]) (H * W)
    from rfl, key]
  interval_cases ch <;> rfl

/-! ## The normalised byte of `postprocess_image` -/

theorem toU8_degenerate (c : ℚ) :
    F32.toU8 (F32.mul (F32.div (F32.sub (.fin c) (.fin c))
      (F32.sub (.fin c) (.fin c))) (.fin 255)) = 0 := by
  simp [F32.sub, F32.div, F32.mul, F32.toU8]

theorem toU8_normalized (x mi ma : ℚ) (hlo : mi ≤ x) (hhi : x ≤ ma)
    (hlt : mi < ma) :
    F32.toU8 (F32.mul (F32.div (F32.sub (.fin x) (.fin mi))
        (F32.sub (.fin ma) (.fin mi))) (.fin 255)) =
      (Rat.floor ((x - mi) / (ma - mi) * 255)).toNat := by
  have hne : ma - mi ≠ 0 := sub_ne_zero.2 (ne_of_gt hlt)
  have hpos : (0 : ℚ) < ma - mi := sub_pos.2 hlt
  simp only [F32.sub, F32.div, F32.mul, if_neg hne]
  have hval : (0 : ℚ) ≤ (x - mi) / (ma - mi) * 255 :=
    mul_nonneg (div_nonneg (sub_nonneg.2 hlo) hpos.le) (by norm_num)
  have hle : (x - mi) / (ma - mi) * 255 ≤ 255 := by
    have h1 : (x - mi) / (ma - mi) ≤ 1 := by
      rw [div_le_one hpos]
      linarith
    nlinarith
  simp only [F32.toU8, if_neg (not_lt.2 hval)]
  have hfl : Rat.floor ((x - mi) / (ma - mi) * 255) ≤ 255 := by
    by_contra hcon
    have h256 : (256 : ℤ) ≤ Rat.floor ((x - mi) / (ma - mi) * 255) := by omega
    have := Rat.le_floor.mp h256
    push_cast at this
    linarith
  have : (Rat.floor ((x - mi) / (ma - mi) * 255)).toNat ≤ 255 := by omega
  omega

/-! ## C1: degenerate (constant) model output gives the uniform 0 mask -/

/-- Evaluation of `postprocess_image` on a degenerate (all-equal) score
list: the result is the uniform 0 mask. -/
theorem postprocess_degenerate_eval (scores : List F32) (c : ℚ)
    (hall : ∀ s ∈ scores, s = F32.fin c)
    (hlen : scores.length = ML_MODEL_IMAGE_HEIGHT * ML_MODEL_IMAGE_WIDTH) :
    postprocess_image scores =
      .ok ⟨ML_MODEL_IMAGE_WIDTH, ML_MODEL_IMAGE_HEIGHT,
        List.replicate (3 * (ML_MODEL_IMAGE_HEIGHT * ML_MODEL_IMAGE_WIDTH)) 0⟩ := by
  have hrep : scores = List.replicate scores.length (F32.fin c) :=
    List.eq_replicate_of_mem hall
  rw [hlen] at hrep
  have hpos : 0 < ML_MODEL_IMAGE_HEIGHT * ML_MODEL_IMAGE_WIDTH := by
    norm_num [ML_MODEL_IMAGE_WIDTH, ML_MODEL_IMAGE_HEIGHT]
  obtain ⟨n, hn⟩ : ∃ n, ML_MODEL_IMAGE_HEIGHT * ML_MODEL_IMAGE_WIDTH = n + 1 :=
    ⟨ML_MODEL_IMAGE_HEIGHT * ML_MODEL_IMAGE_WIDTH - 1, by omega⟩
  rw [hrep, hn]
  have hcons : List.replicate (n + 1) (F32.fin c) =
      (c :: List.replicate n c).map F32.fin := by
    simp [List.replicate_succ, List.map_replicate]
  rw [hcons]
  have hmax := max_by_eq_max c (List.replicate n c) c (List.mem_cons_self _ _)
    (by
      intro x hx
      rcases List.mem_cons.mp hx with rfl | hx
      · exact le_refl x
      · rw [List.eq_of_mem_replicate hx])
  have hmin := min_by_eq_min c (List.replicate n c) c (List.mem_cons_self _ _)
    (by
      intro x hx
      rcases List.mem_cons.mp hx with rfl | hx
      · exact le_refl x
      · rw [List.eq_of_mem_replicate hx])
  simp only [postprocess_image, hmax, hmin]
  have hbytes : ((c :: List.replicate n c).map F32.fin).map
      (fun x => F32.toU8 (F32.mul (F32.div (F32.sub x (.fin c))
        (F32.sub (.fin c) (.fin c))) (.fin 255))) =
      List.replicate (n + 1) 0 := by
    rw [← hcons]
    rw [List.map_replicate]
    rw [toU8_degenerate]
  rw [hbytes]
  rw [buildMask_replicate _ _ _ _ (by omega)]
  rw [hn]

/-- C1: a model output whose scores are all equal to the same finite value
is decoded without error or panic into the uniform mask whose every byte
is the fallback value 0 (the `0/0 = NaN` of the normalization is
saturated to the byte 0 by `as u8`); the mask bytes are plain naturals,
so no NaN or Infinity can occur in them. -/
theorem c1_degenerate_uniform (scores : List F32) (c : ℚ)
    (hall : ∀ s ∈ scores, s = F32.fin c)
    (hlen : scores.length = ML_MODEL_IMAGE_HEIGHT * ML_MODEL_IMAGE_WIDTH) :
    postprocess_image scores =
      .ok ⟨ML_MODEL_IMAGE_WIDTH, ML_MODEL_IMAGE_HEIGHT,
        List.replicate (3 * (ML_MODEL_IMAGE_HEIGHT * ML_MODEL_IMAGE_WIDTH)) 0⟩ :=
  postprocess_degenerate_eval scores c hall hlen

/-- Witness for C1: the constant tensor of score 5 at the model resolution
decodes to the all-zero mask. -/
theorem c1_witness :
    postprocess_image (List.replicate
        (ML_MODEL_IMAGE_HEIGHT * ML_MODEL_IMAGE_WIDTH) (F32.fin 5)) =
      .ok ⟨ML_MODEL_IMAGE_WIDTH, ML_MODEL_IMAGE_HEIGHT,
        List.replicate (3 * (ML_MODEL_IMAGE_HEIGHT * ML_MODEL_IMAGE_WIDTH)) 0⟩ :=
  c1_degenerate_uniform _ 5 (fun _ hs => List.eq_of_mem_replicate hs)
    (List.length_replicate _ _)

/-! ## C4: malformed tensor shapes panic instead of returning an error -/

/-- C4 counterexample: a 2-element tensor (far smaller than the expected
1024×1024 scores) makes `postprocess_image` panic with an out-of-bounds
index while filling the mask, instead of returning a typed error. -/
theorem c4_counterexample :
    postprocess_image [F32.fin 0, F32.fin 1] = .panic := by decide

/-- C4 (amended): `postprocess_image` performs no shape validation.  A
non-empty NaN-free tensor with fewer than 1024×1024 scores causes an
out-of-bounds panic (not a typed error); only the empty tensor is
rejected with a typed error (via the `ok_or` on the max/min fold). -/
theorem c4_shape_unchecked (scores : List F32) :
    (scores ≠ [] → (∀ s ∈ scores, s ≠ F32.nan) →
      scores.length < ML_MODEL_IMAGE_HEIGHT * ML_MODEL_IMAGE_WIDTH →
      postprocess_image scores = .panic) ∧
    postprocess_image [] = .error := by
  constructor
  · intro hne hnan hlen
    match scores, hne with
    | x :: rest, _ =>
      obtain ⟨ma, hmax, _⟩ := maxByFold_ok_of_no_nan rest x
        (hnan x (by simp)) (fun z hz => hnan z (by simp [hz]))
      obtain ⟨mi, hmin, _⟩ := minByFold_ok_of_no_nan rest x
        (hnan x (by simp)) (fun z hz => hnan z (by simp [hz]))
      have hmax' : max_by (x :: rest) = .ok (some ma) := hmax
      have hmin' : min_by (x :: rest) = .ok (some mi) := hmin
      simp only [postprocess_image, hmax', hmin', buildMask]
      rw [if_neg]
      simp only [List.length_map, List.length_cons]
      simp only [List.length_cons] at hlen
      push_neg
      constructor
      · norm_num [ML_MODEL_IMAGE_WIDTH, ML_MODEL_IMAGE_HEIGHT]
      · omega
  · rfl

/-- Witness for C4 (amended): the singleton tensor `[0.0]` panics and the
empty tensor yields the typed error. -/
theorem c4_witness :
    postprocess_image [F32.fin 0] = .panic ∧
      postprocess_image [] = .error :=
  ⟨(c4_shape_unchecked [F32.fin 0]).1 (by simp) (by simp)
      (by norm_num [ML_MODEL_IMAGE_WIDTH, ML_MODEL_IMAGE_HEIGHT]),
    (c4_shape_unchecked []).2⟩

/-! ## C10: the NaN precondition of the min/max computation -/

/-- C10: on a full-size model output, any NaN score makes the
`partial_cmp(..).unwrap()` of the min/max computation panic (so
`postprocess_image` panics), and conversely when every score is non-NaN
the unwrapping comparisons never panic, i.e. the no-NaN precondition makes
the panic branch of the min/max computation unreachable. -/
theorem c10_nan_precondition (scores : List F32) :
    (scores.length = ML_MODEL_IMAGE_HEIGHT * ML_MODEL_IMAGE_WIDTH →
      F32.nan ∈ scores → postprocess_image scores = .panic) ∧
    ((∀ s ∈ scores, s ≠ F32.nan) →
      max_by scores ≠ .panic ∧ min_by scores ≠ .panic) := by
  constructor
  · intro hlen hmem
    have hne : scores ≠ [] := by
      intro h
      rw [h] at hmem
      simp at hmem
    match scores, hne, hmem, hlen with
    | x :: rest, _, hmem, hlen =>
      have hrest : rest ≠ [] := by
        intro h
        rw [h] at hlen
        simp [ML_MODEL_IMAGE_WIDTH, ML_MODEL_IMAGE_HEIGHT] at hlen
      have hpan : max_by (x :: rest) = .panic := by
        show maxByFold (some x) rest = .panic
        by_cases hx : x = .nan
        · exact maxByFold_panic_of_nan rest x (Or.inl ⟨hx, hrest⟩)
        · apply maxByFold_panic_of_nan rest x
          right
          rcases List.mem_cons.mp hmem with h | h
          · exact absurd h.symm hx
          · exact h
      simp only [postprocess_image, hpan]
  · intro hnan
    match scores with
    | [] => exact ⟨by simp [max_by, maxByFold], by simp [min_by, minByFold]⟩
    | x :: rest =>
      obtain ⟨ma, hmax, _⟩ := maxByFold_ok_of_no_nan rest x
        (hnan x (by simp)) (fun z hz => hnan z (by simp [hz]))
      obtain ⟨mi, hmin, _⟩ := minByFold_ok_of_no_nan rest x
        (hnan x (by simp)) (fun z hz => hnan z (by simp [hz]))
      constructor
      · show maxByFold (some x) rest ≠ .panic
        simp [hmax]
      · show minByFold (some x) rest ≠ .panic
        simp [hmin]

/-- Witness for C10: a full-size tensor whose first score is NaN panics;
the all-finite constant tensor never hits the panic branch. -/
theorem c10_witness :
    postprocess_image (F32.nan :: List.replicate
        (ML_MODEL_IMAGE_HEIGHT * ML_MODEL_IMAGE_WIDTH - 1) (F32.fin 0)) = .panic ∧
      (max_by (List.replicate (ML_MODEL_IMAGE_HEIGHT * ML_MODEL_IMAGE_WIDTH)
          (F32.fin 0)) ≠ .panic ∧
        min_by (List.replicate (ML_MODEL_IMAGE_HEIGHT * ML_MODEL_IMAGE_WIDTH)
          (F32.fin 0)) ≠ .panic) :=
  ⟨(c10_nan_precondition _).1
      (by
        rw [List.length_cons, List.length_replicate]
        norm_num [ML_MODEL_IMAGE_WIDTH, ML_MODEL_IMAGE_HEIGHT])
      (List.mem_cons_self _ _),
    (c10_nan_precondition _).2
      (fun s hs => by rw [List.eq_of_mem_replicate hs]; simp)⟩

/-! ## C7: min-max normalization of a non-degenerate model output -/

theorem getD_map_toU8 (l : List ℚ) (f : F32 → ℕ) (i : ℕ) (hi : i < l.length) :
    ((l.map F32.fin).map f).getD i 0 = f (F32.fin (l.getD i 0)) := by
  have h1 : i < ((l.map F32.fin).map f).length := by simpa using hi
  rw [List.getD_eq_getElem _ _ h1, List.getD_eq_getElem _ _ hi]
  simp

/-- C7: for a model output with max > min (given here as the two-sided
bounds `mi`/`ma` attained in the score list), `postprocess_image` succeeds
and every channel of the mask pixel at flat index `i` holds
`trunc((qs[i] - min) / (max - min) * 255)`, replicated across R, G, B. -/
theorem c7_normalization (qs : List ℚ) (mi ma : ℚ)
    (hlen : qs.length = ML_MODEL_IMAGE_HEIGHT * ML_MODEL_IMAGE_WIDTH)
    (hmi : mi ∈ qs) (hmil : ∀ x ∈ qs, mi ≤ x)
    (hma : ma ∈ qs) (hmag : ∀ x ∈ qs, x ≤ ma)
    (hlt : mi < ma) :
    ∃ img, postprocess_image (qs.map F32.fin) = .ok img ∧
      img.width = ML_MODEL_IMAGE_WIDTH ∧ img.height = ML_MODEL_IMAGE_HEIGHT ∧
      ∀ i ch, i < ML_MODEL_IMAGE_HEIGHT * ML_MODEL_IMAGE_WIDTH → ch < 3 →
        img.data.getD (3 * i + ch) 0 =
          (Rat.floor ((qs.getD i 0 - mi) / (ma - mi) * 255)).toNat := by
  match qs, hlen, hmi, hmil, hma, hmag with
  | q :: rest, hlen, hmi, hmil, hma, hmag =>
    have hmax := max_by_eq_max q rest ma hma hmag
    have hmin := min_by_eq_min q rest mi hmi hmil
    simp only [postprocess_image, hmax, hmin]
    have hblen : ML_MODEL_IMAGE_HEIGHT * ML_MODEL_IMAGE_WIDTH ≤
        (((q :: rest).map F32.fin).map
          (fun x => F32.toU8 (F32.mul (F32.div (F32.sub x (.fin mi))
            (F32.sub (.fin ma) (.fin mi))) (.fin 255)))).length := by
      rw [List.length_map, List.length_map, hlen]
    obtain ⟨img, himg, hw, hh, hpix⟩ := buildMask_spec _ _ _ hblen
    refine ⟨img, himg, hw, hh, ?_⟩
    intro i ch hi hc
    rw [hpix i ch hi hc]
    have hiq : i < (q :: rest).length := by
      rw [hlen]
      exact hi
    rw [getD_map_toU8 _ _ i hiq]
    have hmem : (q :: rest).getD i 0 ∈ q :: rest := by
      rw [List.getD_eq_getElem _ _ hiq]
      exact List.getElem_mem _
    exact toU8_normalized _ mi ma (hmil _ hmem) (hmag _ hmem) hlt

/-- Witness for C7: the tensor whose first score is 1 and whose remaining
1024×1024 − 1 scores are 0, with min 0 and max 1. -/
theorem c7_witness :
    ∃ img, postprocess_image
        (((1 : ℚ) :: List.replicate
          (ML_MODEL_IMAGE_HEIGHT * ML_MODEL_IMAGE_WIDTH - 1) (0 : ℚ)).map F32.fin) =
        .ok img ∧
      img.width = ML_MODEL_IMAGE_WIDTH ∧ img.height = ML_MODEL_IMAGE_HEIGHT ∧
      ∀ i ch, i < ML_MODEL_IMAGE_HEIGHT * ML_MODEL_IMAGE_WIDTH → ch < 3 →
        img.data.getD (3 * i + ch) 0 =
          (Rat.floor ((((1 : ℚ) :: List.replicate
            (ML_MODEL_IMAGE_HEIGHT * ML_MODEL_IMAGE_WIDTH - 1) (0 : ℚ)).getD i 0 - 0) /
              (1 - 0) * 255)).toNat :=
  c7_normalization _ 0 1
    (by
      rw [List.length_cons, List.length_replicate]
      norm_num [ML_MODEL_IMAGE_WIDTH, ML_MODEL_IMAGE_HEIGHT])
    (List.mem_cons_of_mem _ (List.mem_replicate.mpr
      ⟨by norm_num [ML_MODEL_IMAGE_WIDTH, ML_MODEL_IMAGE_HEIGHT], rfl⟩))
    (by
      intro x hx
      rcases List.mem_cons.mp hx with rfl | hx
      · norm_num
      · rw [List.eq_of_mem_replicate hx])
    (List.mem_cons_self _ _)
    (by
      intro x hx
      rcases List.mem_cons.mp hx with rfl | hx
      · exact le_refl _
      · rw [List.eq_of_mem_replicate hx]
        norm_num)
    (by norm_num)

/-! ## Structure of the resize output and the planar split -/

theorem resize_rgba_ok (resample : Resample) (img : Image) (tw th : ℕ)
    (buf : List ℕ) (h : resize_rgba resample img tw th = .ok buf) :
    ∃ l, buf = divideAlphaL l ∧ l.length = tw * th * 4 := by
  unfold resize_rgba at h
  by_cases hlen : img.data.length = img.width * img.height * 4
  · rw [if_pos hlen] at h
    by_cases hdim : img.width = tw ∧ img.height = th
    · rw [if_pos hdim] at h
      cases h
      exact ⟨multiplyAlphaL img.data, rfl, by
        rw [multiplyAlphaL_length, hlen, hdim.1, hdim.2]⟩
    · rw [if_neg hdim] at h
      cases h
      exact ⟨_, rfl, by simp⟩
  · rw [if_neg hlen] at h
    cases h

theorem planarize_divide_le (m : ℕ) :
    ∀ (l : List ℕ), l.length = 4 * m →
      ∀ rs gs bs, planarize (divideAlphaL l) = .ok (rs, gs, bs) →
        ∀ v, v ∈ rs ++ gs ++ bs → v ≤ 255 := by
  induction m with
  | zero =>
    intro l hlen rs gs bs h v hv
    match l with
    | [] =>
      simp only [divideAlphaL, planarize, RustOutcome.ok.injEq, Prod.mk.injEq] at h
      obtain ⟨h1, h2, h3⟩ := h
      subst h1 h2 h3
      simp at hv
  | succ m ih =>
    intro l hlen rs gs bs h v hv
    match l with
    | r :: g :: b :: a :: rest =>
      rw [divideAlphaL, planarize] at h
      cases hrec : planarize (divideAlphaL rest) with
      | ok tpl =>
        obtain ⟨rs', gs', bs'⟩ := tpl
        rw [hrec] at h
        simp only [RustOutcome.ok.injEq, Prod.mk.injEq] at h
        obtain ⟨h1, h2, h3⟩ := h
        subst h1 h2 h3
        have hrest : rest.length = 4 * m := by
          simp only [List.length_cons] at hlen
          omega
        rcases List.mem_append.mp hv with h12 | h3
        · rcases List.mem_append.mp h12 with h1 | h2
          · rcases List.mem_cons.mp h1 with rfl | h1
            · exact divAlpha_le_255 _ _
            · exact ih rest hrest rs' gs' bs' hrec v
                (List.mem_append.mpr (Or.inl (List.mem_append.mpr (Or.inl h1))))
          · rcases List.mem_cons.mp h2 with rfl | h2
            · exact divAlpha_le_255 _ _
            · exact ih rest hrest rs' gs' bs' hrec v
                (List.mem_append.mpr (Or.inl (List.mem_append.mpr (Or.inr h2))))
        · rcases List.mem_cons.mp h3 with rfl | h3
          · exact divAlpha_le_255 _ _
          · exact ih rest hrest rs' gs' bs' hrec v
              (List.mem_append.mpr (Or.inr h3))
      | error =>
        rw [hrec] at h
        cases h
      | panic =>
        rw [hrec] at h
        cases h

theorem planarize_spec (m : ℕ) :
    ∀ (l : List ℕ), l.length = 4 * m →
      ∃ rs gs bs, planarize l = .ok (rs, gs, bs) ∧
        rs.length = m ∧ gs.length = m ∧ bs.length = m ∧
        ∀ p, p < m → rs.getD p 0 = l.getD (4 * p) 0 ∧
          gs.getD p 0 = l.getD (4 * p + 1) 0 ∧
          bs.getD p 0 = l.getD (4 * p + 2) 0 := by
  induction m with
  | zero =>
    intro l hlen
    match l with
    | [] => exact ⟨[], [], [], rfl, rfl, rfl, rfl, fun p hp => absurd hp (by omega)⟩
  | succ m ih =>
    intro l hlen
    match l with
    | r :: g :: b :: a :: rest =>
      have hrest : rest.length = 4 * m := by
        simp only [List.length_cons] at hlen
        omega
      obtain ⟨rs, gs, bs, hpl, hr, hg, hb, hget⟩ := ih rest hrest
      refine ⟨r :: rs, g :: gs, b :: bs, ?_, by simp [hr], by simp [hg],
        by simp [hb], ?_⟩
      · rw [planarize, hpl]
      · intro p hp
        cases p with
        | zero => exact ⟨rfl, rfl, rfl⟩
        | succ p =>
          obtain ⟨h1, h2, h3⟩ := hget p (by omega)
          refine ⟨?_, ?_, ?_⟩
          · rw [show 4 * (p + 1) = 4 * p + 1 + 1 + 1 + 1 from by ring]
            simp only [List.getD_cons_succ]
            exact h1
          · rw [show 4 * (p + 1) + 1 = 4 * p + 1 + 1 + 1 + 1 + 1 from by ring]
            simp only [List.getD_cons_succ]
            exact h2
          · rw [show 4 * (p + 1) + 2 = 4 * p + 2 + 1 + 1 + 1 + 1 from by ring]
            simp only [List.getD_cons_succ]
            exact h3

theorem getD_encode_maps (l : List ℕ) (i : ℕ) (hi : i < l.length) :
    ((l.map (fun (b : ℕ) => F32.fin ((b : ℚ) / 255))).map
      (fun x => F32.div (F32.sub x (F32.fin (1 / 2))) (F32.fin 1))).getD i F32.nan =
      F32.fin ((l.getD i 0 : ℚ) / 255 - 1 / 2) := by
  have h1 : i < ((l.map (fun (b : ℕ) => F32.fin ((b : ℚ) / 255))).map
      (fun x => F32.div (F32.sub x (F32.fin (1 / 2))) (F32.fin 1))).length := by
    simpa using hi
  rw [List.getD_eq_getElem _ _ h1, List.getD_eq_getElem _ _ hi]
  simp [F32.sub, F32.div]

/-! ## C5: encoded tensor values lie in [-0.5, 0.5] -/

/-- C5: every element of the tensor produced by `preprocess_image` (for
any input image and any resampling kernel) is a finite value in the
closed interval [-0.5, 0.5]: the resized bytes are clamped to [0, 255]
by the un-premultiplication, so `b/255 - 0.5` lands in the interval. -/
theorem c5_encode_range (resample : Resample) (img : Image) (t : List F32)
    (h : preprocess_image resample img = .ok t) :
    ∀ x ∈ t, ∃ q : ℚ, x = F32.fin q ∧ -(1 / 2) ≤ q ∧ q ≤ 1 / 2 := by
  cases hres : resize_rgba resample img ML_MODEL_IMAGE_WIDTH ML_MODEL_IMAGE_HEIGHT with
  | error => simp [preprocess_image, hres] at h
  | panic => simp [preprocess_image, hres] at h
  | ok buf =>
    obtain ⟨l, hbl, hll⟩ := resize_rgba_ok _ _ _ _ _ hres
    subst hbl
    cases hpl : planarize (divideAlphaL l) with
    | error => simp [preprocess_image, hres, hpl] at h
    | panic => simp [preprocess_image, hres, hpl] at h
    | ok tpl =>
      obtain ⟨rs, gs, bs⟩ := tpl
      simp only [preprocess_image, hres, hpl] at h
      by_cases hshape : (rs ++ gs ++ bs).length =
          3 * ML_MODEL_IMAGE_WIDTH * ML_MODEL_IMAGE_HEIGHT
      · rw [if_pos hshape] at h
        simp only [RustOutcome.ok.injEq] at h
        subst h
        intro x hx
        simp only [List.mem_map] at hx
        obtain ⟨y, ⟨b, hb, rfl⟩, rfl⟩ := hx
        have hb255 : b ≤ 255 :=
          planarize_divide_le (ML_MODEL_IMAGE_WIDTH * ML_MODEL_IMAGE_HEIGHT) l
            (by rw [hll]; ring) rs gs bs hpl b hb
        refine ⟨(b : ℚ) / 255 - 1 / 2, ?_, ?_, ?_⟩
        · simp [F32.sub, F32.div]
        · have h0 : (0 : ℚ) ≤ (b : ℚ) / 255 := by positivity
          linarith
        · have hc : (b : ℚ) ≤ 255 := by exact_mod_cast hb255
          have h1 : (b : ℚ) / 255 ≤ 1 := by
            rw [div_le_one (by norm_num)]
            exact hc
          linarith
      · rw [if_neg hshape] at h
        cases h

/-! ## C6: encoding layout — resize, drop alpha, planar channel-major, scale -/

/-- C6: when `preprocess_image` succeeds, the tensor has 3·1024·1024
elements and element `c·(1024·1024) + p` (channel-major planar position:
plane `c` of R, G, B, pixel `p` in resized pixel order) equals
`b/255 − 0.5` where `b` is byte `4p + c` of the resized RGBA buffer —
i.e. the image is resized first, the alpha byte `4p + 3` is never read,
and each byte is scaled by `1/255` then shifted by `−0.5`. -/
theorem c6_encode_planar (resample : Resample) (img : Image)
    (t : List F32) (buf : List ℕ)
    (h : preprocess_image resample img = .ok t)
    (hbuf : resize_rgba resample img ML_MODEL_IMAGE_WIDTH ML_MODEL_IMAGE_HEIGHT =
      .ok buf) :
    t.length = 3 * (ML_MODEL_IMAGE_WIDTH * ML_MODEL_IMAGE_HEIGHT) ∧
    ∀ c p, c < 3 → p < ML_MODEL_IMAGE_WIDTH * ML_MODEL_IMAGE_HEIGHT →
      t.getD (c * (ML_MODEL_IMAGE_WIDTH * ML_MODEL_IMAGE_HEIGHT) + p) F32.nan =
        F32.fin ((buf.getD (4 * p + c) 0 : ℚ) / 255 - 1 / 2) := by
  obtain ⟨l, hbl, hll⟩ := resize_rgba_ok _ _ _ _ _ hbuf
  have hbuflen : buf.length = 4 * (ML_MODEL_IMAGE_WIDTH * ML_MODEL_IMAGE_HEIGHT) := by
    rw [hbl, divideAlphaL_length, hll]
    ring
  obtain ⟨rs, gs, bs, hpl, hr, hg, hb, hget⟩ :=
    planarize_spec (ML_MODEL_IMAGE_WIDTH * ML_MODEL_IMAGE_HEIGHT) buf hbuflen
  have hlen3 : (rs ++ gs ++ bs).length =
      3 * ML_MODEL_IMAGE_WIDTH * ML_MODEL_IMAGE_HEIGHT := by
    rw [List.length_append, List.length_append, hr, hg, hb]
    ring
  simp only [preprocess_image, hbuf, hpl] at h
  rw [if_pos hlen3] at h
  simp only [RustOutcome.ok.injEq] at h
  subst h
  constructor
  · rw [List.length_map, List.length_map, hlen3]
    ring
  · intro c p hc hp
    have hidx : c * (ML_MODEL_IMAGE_WIDTH * ML_MODEL_IMAGE_HEIGHT) + p <
        (rs ++ gs ++ bs).length := by
      rw [hlen3]
      have : c * (ML_MODEL_IMAGE_WIDTH * ML_MODEL_IMAGE_HEIGHT) ≤
          2 * (ML_MODEL_IMAGE_WIDTH * ML_MODEL_IMAGE_HEIGHT) :=
        Nat.mul_le_mul_right _ (by omega)
      calc c * (ML_MODEL_IMAGE_WIDTH * ML_MODEL_IMAGE_HEIGHT) + p
          < c * (ML_MODEL_IMAGE_WIDTH * ML_MODEL_IMAGE_HEIGHT) +
            (ML_MODEL_IMAGE_WIDTH * ML_MODEL_IMAGE_HEIGHT) := by omega
        _ ≤ 3 * (ML_MODEL_IMAGE_WIDTH * ML_MODEL_IMAGE_HEIGHT) := by omega
        _ = 3 * ML_MODEL_IMAGE_WIDTH * ML_MODEL_IMAGE_HEIGHT := by ring
    rw [getD_encode_maps _ _ hidx]
    have hval : (rs ++ gs ++ bs).getD
        (c * (ML_MODEL_IMAGE_WIDTH * ML_MODEL_IMAGE_HEIGHT) + p) 0 =
        buf.getD (4 * p + c) 0 := by
      interval_cases c
      · simp only [Nat.zero_mul, Nat.zero_add, Nat.add_zero]
        rw [List.getD_append _ _ _ _ (by rw [List.length_append, hr, hg]; omega),
          List.getD_append _ _ _ _ (by rw [hr]; omega)]
        exact (hget p hp).1
      · simp only [Nat.one_mul]
        rw [List.getD_append _ _ _ _ (by rw [List.length_append, hr, hg]; omega),
          List.getD_append_right _ _ _ _ (by rw [hr]; omega)]
        rw [hr, show ML_MODEL_IMAGE_WIDTH * ML_MODEL_IMAGE_HEIGHT + p -
          ML_MODEL_IMAGE_WIDTH * ML_MODEL_IMAGE_HEIGHT = p from by omega]
        exact (hget p hp).2.1
      · rw [List.getD_append_right _ _ _ _
          (by rw [List.length_append, hr, hg]; omega)]
        rw [List.length_append, hr, hg, show
          2 * (ML_MODEL_IMAGE_WIDTH * ML_MODEL_IMAGE_HEIGHT) + p -
            (ML_MODEL_IMAGE_WIDTH * ML_MODEL_IMAGE_HEIGHT +
              ML_MODEL_IMAGE_WIDTH * ML_MODEL_IMAGE_HEIGHT) = p from by omega]
        exact (hget p hp).2.2
    rw [hval]

/-! ## Concrete evaluation of the encoder on an all-zero pipeline -/

theorem divideAlphaL_replicate_zero :
    ∀ n, divideAlphaL (List.replicate (4 * n) 0) = List.replicate (4 * n) 0 := by
  intro n
  induction n with
  | zero => rfl
  | succ n ih =>
    rw [show 4 * (n + 1) = 4 * n + 1 + 1 + 1 + 1 from by ring]
    simp only [List.replicate_succ]
    rw [divideAlphaL, ih]
    rfl

theorem planarize_replicate_zero :
    ∀ n, planarize (List.replicate (4 * n) 0) =
      .ok (List.replicate n 0, List.replicate n 0, List.replicate n 0) := by
  intro n
  induction n with
  | zero => rfl
  | succ n ih =>
    rw [show 4 * (n + 1) = 4 * n + 1 + 1 + 1 + 1 from by ring]
    simp only [List.replicate_succ]
    rw [planarize, ih]

theorem resize_const_eval :
    resize_rgba (fun _ _ _ _ _ _ => 0) ⟨1, 1, [0, 0, 0, 0]⟩
      ML_MODEL_IMAGE_WIDTH ML_MODEL_IMAGE_HEIGHT =
      .ok (List.replicate (4 * (ML_MODEL_IMAGE_WIDTH * ML_MODEL_IMAGE_HEIGHT)) 0) := by
  unfold resize_rgba
  rw [if_pos (by norm_num)]
  rw [if_neg (by norm_num [ML_MODEL_IMAGE_WIDTH])]
  rw [List.map_const', List.length_range,
    show ML_MODEL_IMAGE_WIDTH * ML_MODEL_IMAGE_HEIGHT * 4 =
      4 * (ML_MODEL_IMAGE_WIDTH * ML_MODEL_IMAGE_HEIGHT) from by ring,
    divideAlphaL_replicate_zero]

theorem preprocess_image_ok (resample : Resample) (img : Image)
    (buf rs gs bs : List ℕ)
    (hres : resize_rgba resample img ML_MODEL_IMAGE_WIDTH ML_MODEL_IMAGE_HEIGHT =
      .ok buf)
    (hpl : planarize buf = .ok (rs, gs, bs))
    (hsh : (rs ++ gs ++ bs).length =
      3 * ML_MODEL_IMAGE_WIDTH * ML_MODEL_IMAGE_HEIGHT) :
    preprocess_image resample img =
      .ok (((rs ++ gs ++ bs).map (fun (b : ℕ) => F32.fin ((b : ℚ) / 255))).map
        (fun x => F32.div (F32.sub x (F32.fin (1 / 2))) (F32.fin 1))) := by
  simp only [preprocess_image, hres, hpl]
  rw [if_pos hsh]

theorem preprocess_const_eval :
    preprocess_image (fun _ _ _ _ _ _ => 0) ⟨1, 1, [0, 0, 0, 0]⟩ =
      .ok (List.replicate (3 * (ML_MODEL_IMAGE_WIDTH * ML_MODEL_IMAGE_HEIGHT))
        (F32.fin (-(1 / 2)))) := by
  have happ : List.replicate (ML_MODEL_IMAGE_WIDTH * ML_MODEL_IMAGE_HEIGHT) (0 : ℕ) ++
      List.replicate (ML_MODEL_IMAGE_WIDTH * ML_MODEL_IMAGE_HEIGHT) (0 : ℕ) ++
      List.replicate (ML_MODEL_IMAGE_WIDTH * ML_MODEL_IMAGE_HEIGHT) (0 : ℕ) =
      List.replicate (3 * (ML_MODEL_IMAGE_WIDTH * ML_MODEL_IMAGE_HEIGHT)) (0 : ℕ) := by
    rw [← List.replicate_add, ← List.replicate_add,
      show ML_MODEL_IMAGE_WIDTH * ML_MODEL_IMAGE_HEIGHT +
          ML_MODEL_IMAGE_WIDTH * ML_MODEL_IMAGE_HEIGHT +
          ML_MODEL_IMAGE_WIDTH * ML_MODEL_IMAGE_HEIGHT =
        3 * (ML_MODEL_IMAGE_WIDTH * ML_MODEL_IMAGE_HEIGHT) from by ring]
  have hstep := preprocess_image_ok (fun _ _ _ _ _ _ => 0) ⟨1, 1, [0, 0, 0, 0]⟩
    (List.replicate (4 * (ML_MODEL_IMAGE_WIDTH * ML_MODEL_IMAGE_HEIGHT)) 0)
    (List.replicate (ML_MODEL_IMAGE_WIDTH * ML_MODEL_IMAGE_HEIGHT) 0)
    (List.replicate (ML_MODEL_IMAGE_WIDTH * ML_MODEL_IMAGE_HEIGHT) 0)
    (List.replicate (ML_MODEL_IMAGE_WIDTH * ML_MODEL_IMAGE_HEIGHT) 0)
    resize_const_eval
    (planarize_replicate_zero (ML_MODEL_IMAGE_WIDTH * ML_MODEL_IMAGE_HEIGHT))
    (by rw [happ, List.length_replicate]; ring)
  rw [hstep, happ, List.map_replicate, List.map_replicate]
  have hv : F32.div (F32.sub (F32.fin (((0 : ℕ) : ℚ) / 255)) (F32.fin (1 / 2)))
      (F32.fin 1) = F32.fin (-(1 / 2)) := by
    norm_num [F32.sub, F32.div]
  rw [hv]

/-- Witness for C5: the element produced by the all-zero pipeline is a
finite value in [-0.5, 0.5] (it equals exactly -0.5). -/
theorem c5_witness :
    ∃ q : ℚ, F32.fin (-(1 / 2)) = F32.fin q ∧ -(1 / 2) ≤ q ∧ q ≤ 1 / 2 :=
  c5_encode_range _ _ _ preprocess_const_eval (F32.fin (-(1 / 2)))
    (List.mem_replicate.mpr
      ⟨by norm_num [ML_MODEL_IMAGE_WIDTH, ML_MODEL_IMAGE_HEIGHT], rfl⟩)

/-- Witness for C6: the layout equations instantiated on the all-zero
pipeline (every byte 0, every tensor entry -0.5). -/
theorem c6_witness :
    (List.replicate (3 * (ML_MODEL_IMAGE_WIDTH * ML_MODEL_IMAGE_HEIGHT))
        (F32.fin (-(1 / 2)))).length =
      3 * (ML_MODEL_IMAGE_WIDTH * ML_MODEL_IMAGE_HEIGHT) ∧
    ∀ c p, c < 3 → p < ML_MODEL_IMAGE_WIDTH * ML_MODEL_IMAGE_HEIGHT →
      (List.replicate (3 * (ML_MODEL_IMAGE_WIDTH * ML_MODEL_IMAGE_HEIGHT))
          (F32.fin (-(1 / 2)))).getD
          (c * (ML_MODEL_IMAGE_WIDTH * ML_MODEL_IMAGE_HEIGHT) + p) F32.nan =
        F32.fin ((((List.replicate
            (4 * (ML_MODEL_IMAGE_WIDTH * ML_MODEL_IMAGE_HEIGHT)) 0).getD
              (4 * p + c) 0 : ℕ) : ℚ) / 255 - 1 / 2) :=
  c6_encode_planar _ _ _ _ preprocess_const_eval resize_const_eval

/-! ## C9: the pipeline preserves the original dimensions -/

theorem rgbaOfRgb_replicate_length (c : ℕ) :
    ∀ n, (rgbaOfRgb (List.replicate (3 * n) c)).length = 4 * n := by
  intro n
  induction n with
  | zero => rfl
  | succ n ih =>
    rw [show 3 * (n + 1) = 3 * n + 1 + 1 + 1 from by ring]
    simp only [List.replicate_succ]
    rw [rgbaOfRgb]
    simp only [List.length_cons, ih]
    ring

/-- C9: whenever `remove_background` returns an image, that image has
exactly the input's width and height: the mask image is rebuilt at the
original's dimensions and `apply_mask` sizes its output by the mask. -/
theorem c9_run_preserves_dims (resample : Resample)
    (inference : List F32 → List F32) (orig : Image) (out : Image)
    (h : remove_background resample inference orig = .ok out) :
    out.width = orig.width ∧ out.height = orig.height := by
  cases h1 : preprocess_image resample orig with
  | error =>
    simp only [remove_background, h1] at h
    cases h
  | panic =>
    simp only [remove_background, h1] at h
    cases h
  | ok t =>
    cases h2 : postprocess_image (inference t) with
    | error =>
      simp only [remove_background, h1, h2] at h
      cases h
    | panic =>
      simp only [remove_background, h1, h2] at h
      cases h
    | ok maskRgb =>
      cases h3 : resize_rgba resample
          ⟨maskRgb.width, maskRgb.height, rgbaOfRgb maskRgb.data⟩
          orig.width orig.height with
      | error =>
        simp only [remove_background, h1, h2, h3] at h
        cases h
      | panic =>
        simp only [remove_background, h1, h2, h3] at h
        cases h
      | ok resized =>
        simp only [remove_background, h1, h2, h3] at h
        by_cases h4 : orig.width * orig.height * 4 ≤ resized.length
        · rw [if_pos h4] at h
          unfold apply_mask at h
          rw [if_neg (by simp)] at h
          simp only [RustOutcome.ok.injEq] at h
          subst h
          exact ⟨rfl, rfl⟩
        · rw [if_neg h4] at h
          cases h

theorem remove_background_ok (resample : Resample)
    (inference : List F32 → List F32) (orig : Image)
    (t : List F32) (maskRgb : Image) (resized : List ℕ)
    (h1 : preprocess_image resample orig = .ok t)
    (h2 : postprocess_image (inference t) = .ok maskRgb)
    (h3 : resize_rgba resample
      ⟨maskRgb.width, maskRgb.height, rgbaOfRgb maskRgb.data⟩
      orig.width orig.height = .ok resized)
    (h4 : orig.width * orig.height * 4 ≤ resized.length) :
    remove_background resample inference orig =
      apply_mask orig ⟨orig.width, orig.height, resized⟩ := by
  simp only [remove_background, h1, h2, h3]
  rw [if_pos h4]

theorem resize_mask_const_eval :
    resize_rgba (fun _ _ _ _ _ _ => 0)
      ⟨ML_MODEL_IMAGE_WIDTH, ML_MODEL_IMAGE_HEIGHT,
        rgbaOfRgb (List.replicate
          (3 * (ML_MODEL_IMAGE_HEIGHT * ML_MODEL_IMAGE_WIDTH)) 0)⟩ 1 1 =
      .ok (List.replicate 4 0) := by
  unfold resize_rgba
  rw [if_pos (by
    rw [rgbaOfRgb_replicate_length]
    show 4 * (ML_MODEL_IMAGE_HEIGHT * ML_MODEL_IMAGE_WIDTH) =
      ML_MODEL_IMAGE_WIDTH * ML_MODEL_IMAGE_HEIGHT * 4
    ring)]
  rw [if_neg (by simp [ML_MODEL_IMAGE_WIDTH])]
  rw [List.map_const', List.length_range,
    show (1 * 1 * 4 : ℕ) = 4 * 1 from rfl, divideAlphaL_replicate_zero,
    show (4 * 1 : ℕ) = 4 from rfl]

/-- Witness for C9: the all-zero pipeline on a 1×1 image succeeds and
returns a 1×1 image. -/
theorem c9_witness :
    ∃ out, remove_background (fun _ _ _ _ _ _ => 0)
        (fun _ => List.replicate (ML_MODEL_IMAGE_HEIGHT * ML_MODEL_IMAGE_WIDTH)
          (F32.fin 0))
        ⟨1, 1, [0, 0, 0, 0]⟩ = .ok out ∧
      out.width = (⟨1, 1, [0, 0, 0, 0]⟩ : Image).width ∧
      out.height = (⟨1, 1, [0, 0, 0, 0]⟩ : Image).height := by
  have h2 : postprocess_image (List.replicate
      (ML_MODEL_IMAGE_HEIGHT * ML_MODEL_IMAGE_WIDTH) (F32.fin 0)) =
      .ok ⟨ML_MODEL_IMAGE_WIDTH, ML_MODEL_IMAGE_HEIGHT,
        List.replicate (3 * (ML_MODEL_IMAGE_HEIGHT * ML_MODEL_IMAGE_WIDTH)) 0⟩ :=
    postprocess_degenerate_eval _ 0 (fun _ hs => List.eq_of_mem_replicate hs)
      (List.length_replicate _ _)
  have hrb := remove_background_ok (fun _ _ _ _ _ _ => 0)
    (fun _ => List.replicate (ML_MODEL_IMAGE_HEIGHT * ML_MODEL_IMAGE_WIDTH)
      (F32.fin 0))
    ⟨1, 1, [0, 0, 0, 0]⟩ _ _ _ preprocess_const_eval h2
    resize_mask_const_eval (by decide)
  have happ : apply_mask ⟨1, 1, [0, 0, 0, 0]⟩ ⟨1, 1, List.replicate 4 0⟩ =
      .ok ⟨1, 1, [0, 0, 0, 0]⟩ := by decide
  rw [happ] at hrb
  exact ⟨_, hrb, (c9_run_preserves_dims _ _ _ _ hrb).1,
    (c9_run_preserves_dims _ _ _ _ hrb).2⟩
